import Mathlib

/-!
Verification development for the capacity-planning dashboard
(getunchained/capacity, src/src/App.jsx).

The calculation engine of App.jsx is shallowly embedded here:

* a JavaScript `Date` is its timestamp in milliseconds (an integer; the
  embedding treats local time as a fixed offset, so "local midnight" is a
  multiple of `msPerDay`);
* JavaScript field values that may hold a `Date`, a raw string, `null` or an
  `Invalid Date` are the inductive `JSVal`;
* fractional hours are exact rationals;
* the `Map` objects built by the aggregation pass are insertion-ordered
  association lists, with JavaScript `Map.set` semantics (update in place for
  a present key, append for an absent one).

Every definition is translated from App.jsx; the line numbers in the doc
comments refer to that file.
-/

namespace Capacity

/-- Milliseconds in one day, the unit JavaScript `Date` timestamps advance by
per calendar day in a fixed-offset local time. -/
def msPerDay : Int := 86400000

/-- Day index of a timestamp: the floor of `t / msPerDay`. On `Int` the `/`
operator is Euclidean division, which for a positive divisor is exactly floor
division, matching the day a local timestamp falls on. -/
def dayOf (t : Int) : Int := t / msPerDay

/-- Normalization of a timestamp to local midnight, modelling
`new Date(d.getFullYear(), d.getMonth(), d.getDate())` (App.jsx:59-60). -/
def normDate (t : Int) : Int := dayOf t * msPerDay

/-- Day-of-week of a day index, modelling `Date.prototype.getDay`:
0 = Sunday .. 6 = Saturday. Day 0 (Jan 1 1970) was a Thursday, hence `+ 4`. -/
def dowOfDay (d : Int) : Int := (d + 4) % 7

/-- True when a day index falls on Monday through Friday
(App.jsx:65-66: `dow !== 0 && dow !== 6`). -/
def isWeekday (d : Int) : Bool := dowOfDay d != 0 && dowOfDay d != 6

/-- Count of weekdays among the `n` consecutive day indices starting at `d`;
the loop body of `getBusinessDays` (App.jsx:64-67). -/
def businessDaysFrom (d : Int) : Nat → Nat
  | 0 => 0
  | n + 1 => (if isWeekday d then 1 else 0) + businessDaysFrom (d + 1) n

/-- Business-day count between two timestamps, inclusive, after normalizing
both to local midnight; `getBusinessDays` (App.jsx:55-69) on two `Date`
arguments. Returns 0 when the normalized start exceeds the normalized end. -/
def getBusinessDays (startDate endDate : Int) : Nat :=
  if dayOf endDate < dayOf startDate then 0
  else businessDaysFrom (dayOf startDate) ((dayOf endDate - dayOf startDate).toNat + 1)

/-- JavaScript value held by a parsed CSV cell that the date logic consumes:
a valid `Date`, an `Invalid Date` (NaN timestamp), a raw string, or `null`. -/
inductive JSVal where
  | jdate (t : Int)
  | jinvalidDate
  | jstr (s : String)
  | jnull
deriving DecidableEq, Repr

/-- True exactly for values that satisfy `x instanceof Date` in JavaScript;
an `Invalid Date` is still a `Date` object. -/
def isDateObj : JSVal → Bool
  | .jdate _ => true
  | .jinvalidDate => true
  | _ => false

/-- Full `getBusinessDays` (App.jsx:55-69) at its public interface, on
arbitrary field values. Non-`Date` arguments hit the guard on line 56 and
return 0. An `Invalid Date` passes the guard, but every comparison with its
NaN components is false, so the loop never runs and the count stays 0. -/
def getBusinessDaysV : JSVal → JSVal → Nat
  | .jdate s, .jdate e => getBusinessDays s e
  | _, _ => 0

/- Helper lemmas about the day arithmetic. -/

theorem msPerDay_pos : (0 : Int) < msPerDay := by decide

theorem dayOf_normDate (t : Int) : dayOf (normDate t) = dayOf t := by
  unfold normDate dayOf
  exact Int.mul_ediv_cancel _ (by decide)

theorem dayOf_mono {a b : Int} (h : a ≤ b) : dayOf a ≤ dayOf b :=
  Int.ediv_le_ediv msPerDay_pos h

/-- Splitting the counting loop: counting over `m + n` consecutive days is
counting over the first `m` and then over the remaining `n`. -/
theorem businessDaysFrom_add (m n : Nat) :
    ∀ d : Int, businessDaysFrom d (m + n) =
      businessDaysFrom d m + businessDaysFrom (d + m) n := by
  induction m with
  | zero => intro d; simp [businessDaysFrom]
  | succ m ih =>
    intro d
    have h1 : m + 1 + n = (m + n) + 1 := by omega
    rw [h1]
    simp only [businessDaysFrom, ih (d + 1)]
    have h2 : d + 1 + (m : Int) = d + ((m + 1 : Nat) : Int) := by push_cast; ring
    rw [h2]
    omega

/-- Loop count as a filtered range length: `businessDaysFrom d n` is the
number of offsets `i < n` with `d + i` a weekday. -/
theorem businessDaysFrom_eq_count (n : Nat) (d : Int) :
    businessDaysFrom d n =
      ((List.range n).filter (fun i : Nat => isWeekday (d + (i : Int)))).length := by
  induction n with
  | zero => simp [businessDaysFrom]
  | succ n ih =>
    have hsplit := businessDaysFrom_add n 1 d
    rw [hsplit, List.range_succ, List.filter_append, List.length_append, ih]
    simp [businessDaysFrom, List.filter_singleton]
    rcases hw : isWeekday (d + n) with _ | _ <;> simp [hw]

/-- Monotonicity of the business-day count under inclusion of the day
interval. -/
theorem getBusinessDays_subinterval {s e s' e' : Int}
    (h1 : dayOf s ≤ dayOf s') (h2 : dayOf e' ≤ dayOf e)
    (h3 : dayOf s' ≤ dayOf e') :
    getBusinessDays s' e' ≤ getBusinessDays s e := by
  unfold getBusinessDays
  rw [if_neg (by omega), if_neg (by omega)]
  set a := dayOf s with ha
  set a' := dayOf s' with ha'
  set b := dayOf e with hb
  set b' := dayOf e' with hb'
  have hm : (b - a).toNat + 1 =
      (a' - a).toNat + (((b' - a').toNat + 1) + (b - b').toNat) := by omega
  have h4 := businessDaysFrom_add ((a' - a).toNat)
    (((b' - a').toNat + 1) + (b - b').toNat) a
  have hcast : a + (((a' - a).toNat : Nat) : Int) = a' := by omega
  rw [hcast] at h4
  have h5 := businessDaysFrom_add ((b' - a').toNat + 1) ((b - b').toNat) a'
  rw [hm, h4, h5]
  omega

/-- C4. `getBusinessDays` normalizes both arguments to local midnight (its
value is invariant under normalization), returns 0 when the normalized start
is after the normalized end, and otherwise counts the days from start to end
inclusive whose weekday is Monday through Friday; moreover
`businessDays(Mon, Fri of the same week) = 5`, `businessDays(Sat, Sun) = 0`,
and `businessDays(d, d)` is 1 on a weekday and 0 on a weekend day. The
concrete days use the real 1970 calendar: day 4 = Mon Jan 5 1970,
day 8 = Fri Jan 9 1970, day 2 = Sat Jan 3 1970, day 3 = Sun Jan 4 1970. -/
theorem c4_getBusinessDays_spec (s e : Int) :
    getBusinessDays s e = getBusinessDays (normDate s) (normDate e) ∧
    (dayOf e < dayOf s → getBusinessDays s e = 0) ∧
    (dayOf s ≤ dayOf e →
      getBusinessDays s e =
        ((List.range ((dayOf e - dayOf s).toNat + 1)).filter
          (fun i : Nat => isWeekday (dayOf s + (i : Int)))).length) ∧
    getBusinessDays (4 * msPerDay) (8 * msPerDay) = 5 ∧
    getBusinessDays (2 * msPerDay) (3 * msPerDay) = 0 ∧
    getBusinessDays (4 * msPerDay) (4 * msPerDay) = 1 ∧
    getBusinessDays (2 * msPerDay) (2 * msPerDay) = 0 := by
  refine ⟨?_, ?_, ?_, by decide, by decide, by decide, by decide⟩
  · unfold getBusinessDays
    rw [dayOf_normDate, dayOf_normDate]
  · intro h; unfold getBusinessDays; rw [if_pos h]
  · intro h
    unfold getBusinessDays
    rw [if_neg (by omega), businessDaysFrom_eq_count]

/-- Witness for C4 at concrete timestamps: start noon of Mon Jan 5 1970,
end 8am of Fri Jan 9 1970 (non-midnight inputs), where the normalized
comparison applies and the count is 5. -/
theorem c4_getBusinessDays_spec_witness :
    dayOf (4 * msPerDay + 43200000) ≤ dayOf (8 * msPerDay + 28800000) ∧
    getBusinessDays (4 * msPerDay + 43200000) (8 * msPerDay + 28800000) =
      ((List.range ((dayOf (8 * msPerDay + 28800000) -
          dayOf (4 * msPerDay + 43200000)).toNat + 1)).filter
        (fun i : Nat => isWeekday (dayOf (4 * msPerDay + 43200000) + (i : Int)))).length := by
  refine ⟨by decide, ?_⟩
  exact (c4_getBusinessDays_spec (4 * msPerDay + 43200000)
    (8 * msPerDay + 28800000)).2.2.1 (by decide)

/-- C10. `getBusinessDays` is total at its public interface: whenever either
argument is not a `Date` object (`null` from a failed parse, or a raw
string), the guard on App.jsx:56 returns 0 rather than throwing. -/
theorem c10_getBusinessDays_total (a b : JSVal)
    (h : isDateObj a = false ∨ isDateObj b = false) :
    getBusinessDaysV a b = 0 := by
  cases a <;> cases b <;> simp_all [isDateObj, getBusinessDaysV]

/-- Witness for C10: a `null` start (failed date parse) and a raw-string end
both yield 0. -/
theorem c10_getBusinessDays_total_witness :
    getBusinessDaysV JSVal.jnull (JSVal.jdate 0) = 0 ∧
    getBusinessDaysV (JSVal.jdate 0) (JSVal.jstr "01/05/1970") = 0 :=
  ⟨c10_getBusinessDays_total _ _ (Or.inl rfl),
   c10_getBusinessDays_total _ _ (Or.inr rfl)⟩

/-! String helpers. JavaScript string operations are embedded at the level of
character lists: `split`, `trim` (ASCII whitespace), `toUpperCase` and
substring containment (`includes`). -/

/-- JavaScript `String.prototype.split` on a single separator character:
every occurrence splits, so `n` separators yield `n + 1` parts. -/
def splitChar (sep : Char) : List Char → List (List Char)
  | [] => [[]]
  | c :: cs =>
    match splitChar sep cs with
    | [] => [[]]
    | h :: t => if c = sep then [] :: h :: t else (c :: h) :: t

/-- ASCII whitespace recognized by `trim` on the inputs this app sees. -/
def isJsWS (c : Char) : Bool := c == ' ' || c == '\t' || c == '\n' || c == '\r'

/-- JavaScript `String.prototype.trim` on character lists. -/
def jsTrim (l : List Char) : List Char :=
  ((l.dropWhile isJsWS).reverse.dropWhile isJsWS).reverse

/-- JavaScript `String.prototype.toUpperCase` on the ASCII inputs this app
sees. -/
def jsUpper (l : List Char) : List Char := l.map Char.toUpper

/-- True when `pat` is an initial segment of `l`. -/
def startsWithL : List Char → List Char → Bool
  | [], _ => true
  | _ :: _, [] => false
  | p :: ps, c :: cs => p == c && startsWithL ps cs

/-- Occurrence search for `pat` at any position of the second argument. -/
def containsSubAux (pat : List Char) : List Char → Bool
  | [] => startsWithL pat []
  | c :: cs => startsWithL pat (c :: cs) || containsSubAux pat cs

/-- JavaScript `String.prototype.includes`: substring containment. -/
def containsSubL (l pat : List Char) : Bool := containsSubAux pat l

/-- Name canonicalization, `normalizeName` (App.jsx:11-18): empty input gives
the empty string; an input containing a comma is split on every comma, the
first two parts are taken as last and first name (`const [last, first] =
name.split(",").map(n => n.trim())`), reassembled as FIRST LAST and
uppercased; any other input is uppercased as-is. -/
def normalizeName (name : String) : String :=
  if name = "" then ""
  else if name.toList.contains ',' then
    let parts := (splitChar ',' name.toList).map jsTrim
    String.mk (jsUpper (parts.getD 1 [] ++ ' ' :: parts.getD 0 []))
  else String.mk (jsUpper name.toList)

/-- Modelled from the claim wording of C5, for refinement comparison only:
split on the FIRST comma, so everything after that comma is the first-name
part. The code (`normalizeName` above) instead discards anything after a
second comma. -/
def normalizeNameFirstCommaSpec (name : String) : String :=
  if name = "" then ""
  else if name.toList.contains ',' then
    let last := jsTrim (name.toList.takeWhile (fun c => c != ','))
    let first := jsTrim ((name.toList.dropWhile (fun c => c != ',')).drop 1)
    String.mk (jsUpper (first ++ ' ' :: last))
  else String.mk (jsUpper name.toList)

theorem splitChar_ne_nil (sep : Char) (l : List Char) : splitChar sep l ≠ [] := by
  cases l with
  | nil => simp [splitChar]
  | cons c cs =>
    unfold splitChar
    rcases splitChar sep cs with _ | ⟨h, t⟩
    · simp
    · by_cases hc : c = sep <;> simp [hc]

theorem splitChar_not_mem {sep : Char} {l : List Char} (h : sep ∉ l) :
    splitChar sep l = [l] := by
  induction l with
  | nil => rfl
  | cons c cs ih =>
    have hc : c ≠ sep := by
      intro hq; exact h (hq ▸ List.mem_cons_self c cs)
    have hcs : sep ∉ cs := fun hm => h (List.mem_cons_of_mem _ hm)
    unfold splitChar
    rw [ih hcs]
    simp [hc]

theorem splitChar_cons (sep c : Char) (cs : List Char) :
    splitChar sep (c :: cs) =
      match splitChar sep cs with
      | [] => [[]]
      | h :: t => if c = sep then [] :: h :: t else (c :: h) :: t := rfl

theorem splitChar_append_sep {sep : Char} {l1 : List Char} (l2 : List Char)
    (h : sep ∉ l1) :
    splitChar sep (l1 ++ sep :: l2) = l1 :: splitChar sep l2 := by
  induction l1 with
  | nil =>
    rcases hq : splitChar sep l2 with _ | ⟨hd, tl⟩
    · exact absurd hq (splitChar_ne_nil sep l2)
    · simp only [List.nil_append]
      rw [splitChar_cons, hq]
      simp
  | cons c cs ih =>
    have hc : c ≠ sep := by
      intro hq; exact h (hq ▸ List.mem_cons_self c cs)
    have hcs : sep ∉ cs := fun hm => h (List.mem_cons_of_mem _ hm)
    simp only [List.cons_append]
    rw [splitChar_cons, ih hcs]
    simp [hc]

theorem takeWhile_no_sep {sep : Char} {l1 : List Char} (l2 : List Char)
    (h : sep ∉ l1) :
    (l1 ++ sep :: l2).takeWhile (fun c => c != sep) = l1 := by
  induction l1 with
  | nil => simp
  | cons c cs ih =>
    have hc : c ≠ sep := by
      intro hq; exact h (hq ▸ List.mem_cons_self c cs)
    have hcs : sep ∉ cs := fun hm => h (List.mem_cons_of_mem _ hm)
    simp only [List.cons_append, List.takeWhile_cons]
    simp [hc, ih hcs]

theorem dropWhile_no_sep {sep : Char} {l1 : List Char} (l2 : List Char)
    (h : sep ∉ l1) :
    (l1 ++ sep :: l2).dropWhile (fun c => c != sep) = sep :: l2 := by
  induction l1 with
  | nil => simp
  | cons c cs ih =>
    have hc : c ≠ sep := by
      intro hq; exact h (hq ▸ List.mem_cons_self c cs)
    have hcs : sep ∉ cs := fun hm => h (List.mem_cons_of_mem _ hm)
    simp only [List.cons_append, List.dropWhile_cons]
    simp [hc, ih hcs]

/-- C5 counterexample: on an input with two commas, the code keeps only the
part between the first and the second comma as the first name, while the
claimed first-comma split would keep everything after the first comma. -/
theorem c5_normalizeName_counterexample :
    normalizeName "Smith, John, Jr" = "JOHN SMITH" ∧
    normalizeNameFirstCommaSpec "Smith, John, Jr" = "JOHN, JR SMITH" ∧
    normalizeName "Smith, John, Jr" ≠
      normalizeNameFirstCommaSpec "Smith, John, Jr" := by
  refine ⟨by decide, by decide, by decide⟩

/-- C5 as amended. `normalizeName` returns the empty string on empty input;
on an input containing a comma it splits on every comma and keeps the first
two parts, trimmed, as last and first name, reassembled FIRST LAST and
uppercased — for inputs with a single comma (whitespace padding included)
this coincides with the claimed first-comma split, but parts after a second
comma are discarded; a comma-free input is uppercased as-is. -/
theorem c5_normalizeName_amended :
    normalizeName "" = "" ∧
    (∀ l1 l2 : List Char, ',' ∉ l1 → ',' ∉ l2 →
      normalizeName (String.mk (l1 ++ ',' :: l2)) =
        String.mk (jsUpper (jsTrim l2 ++ ' ' :: jsTrim l1))) ∧
    (∀ l1 l2 : List Char, ',' ∉ l1 → ',' ∉ l2 →
      normalizeName (String.mk (l1 ++ ',' :: l2)) =
        normalizeNameFirstCommaSpec (String.mk (l1 ++ ',' :: l2))) ∧
    (∀ s : String, ',' ∉ s.toList → normalizeName s = String.mk (jsUpper s.toList)) ∧
    normalizeName "Smith, John" = "JOHN SMITH" ∧
    normalizeName "john smith" = "JOHN SMITH" ∧
    normalizeName "  Smith  ,  John  " = "JOHN SMITH" := by
  have key : ∀ l1 l2 : List Char, ',' ∉ l1 → ',' ∉ l2 →
      normalizeName (String.mk (l1 ++ ',' :: l2)) =
        String.mk (jsUpper (jsTrim l2 ++ ' ' :: jsTrim l1)) := by
    intro l1 l2 h1 h2
    have hne : String.mk (l1 ++ ',' :: l2) ≠ "" := by
      intro h
      have h3 := congrArg String.data h
      simp at h3
    have htl : (String.mk (l1 ++ ',' :: l2)).toList = l1 ++ ',' :: l2 := rfl
    have hcon : ((l1 ++ ',' :: l2).contains ',') = true := by
      simp [List.contains, List.elem_iff]
    unfold normalizeName
    rw [if_neg hne, htl, hcon, if_pos rfl, splitChar_append_sep l2 h1,
      splitChar_not_mem h2]
    rfl
  have keySpec : ∀ l1 l2 : List Char, ',' ∉ l1 → ',' ∉ l2 →
      normalizeNameFirstCommaSpec (String.mk (l1 ++ ',' :: l2)) =
        String.mk (jsUpper (jsTrim l2 ++ ' ' :: jsTrim l1)) := by
    intro l1 l2 h1 h2
    have hne : String.mk (l1 ++ ',' :: l2) ≠ "" := by
      intro h
      have h3 := congrArg String.data h
      simp at h3
    have htl : (String.mk (l1 ++ ',' :: l2)).toList = l1 ++ ',' :: l2 := rfl
    have hcon : ((l1 ++ ',' :: l2).contains ',') = true := by
      simp [List.contains, List.elem_iff]
    have htake := takeWhile_no_sep l2 h1
    have hdrop := dropWhile_no_sep l2 h1
    unfold normalizeNameFirstCommaSpec
    rw [if_neg hne, htl, hcon, if_pos rfl, htake, hdrop]
    rfl
  refine ⟨by decide, key, ?_, ?_, by decide, by decide, by decide⟩
  · intro l1 l2 h1 h2
    rw [key l1 l2 h1 h2, keySpec l1 l2 h1 h2]
  · intro s hs
    have hs' : ',' ∉ s.data := hs
    have hcon : (s.toList.contains ',') = false := by
      simp [List.contains, List.elem_iff, hs']
    unfold normalizeName
    by_cases he : s = ""
    · subst he; rfl
    · rw [if_neg he, hcon]
      simp

/-- Witness for C5 as amended, at a concrete single-comma input with
whitespace padding around the comma. -/
theorem c5_normalizeName_amended_witness :
    normalizeName (String.mk ("Smith ".toList ++ ',' :: " John".toList)) =
      String.mk (jsUpper (jsTrim " John".toList ++ ' ' :: jsTrim "Smith ".toList)) :=
  c5_normalizeName_amended.2.1 "Smith ".toList " John".toList
    (by decide) (by decide)

/-! Date parsing inside `parseCsvData` (App.jsx:204-214). A Start Date or
End Date cell is matched against `^\d{1,2}\/\d{1,2}\/\d{4}$` and
`^[A-Za-z]{3}-\d{1,2}$`; a match is turned into a `Date`, anything else is
left in the row unchanged as the raw string. -/

/-- True when `l` is all decimal digits with length in `[lo, hi]`. -/
def isDigitsLen (l : List Char) (lo hi : Nat) : Bool :=
  l.all (·.isDigit) && decide (lo ≤ l.length) && decide (l.length ≤ hi)

/-- Match for the regex `^\d{1,2}\/\d{1,2}\/\d{4}$` (App.jsx:206): exactly
two slashes, with 1-2, 1-2 and 4 digit groups. -/
def matchMMDDYYYY (v : String) : Bool :=
  match splitChar '/' v.toList with
  | [a, b, c] => isDigitsLen a 1 2 && isDigitsLen b 1 2 && isDigitsLen c 4 4
  | _ => false

/-- Match for the regex `^[A-Za-z]{3}-\d{1,2}$` (App.jsx:210): three letters,
a dash, and 1-2 digits. -/
def matchMonDD (v : String) : Bool :=
  match splitChar '-' v.toList with
  | [a, b] => decide (a.length = 3) && a.all (·.isAlpha) && isDigitsLen b 1 2
  | _ => false

/-- Decimal value of a digit string, modelling `Number` on the matched digit
groups. -/
def natOfDigits (l : List Char) : Nat :=
  l.foldl (fun n c => n * 10 + (c.toNat - 48)) 0

/-- Day number of the civil date `y-m-d` (with `1 ≤ m ≤ 12`) counted from
1970-01-01, by the standard era decomposition of the Gregorian calendar; a
day argument outside the month length extends linearly, which is exactly the
rollover behaviour of the JavaScript `Date` constructor. -/
def daysFromCivil (y m d : Int) : Int :=
  let y2 := if m ≤ 2 then y - 1 else y
  let era := y2 / 400
  let yoe := y2 - era * 400
  let mp := (m + 9) % 12
  let doy := (153 * mp + 2) / 5 + d - 1
  let doe := yoe * 365 + yoe / 4 - yoe / 100 + doy
  era * 146097 + doe - 719468

/-- Timestamp of `new Date(y, mIdx, d)` (month index 0-based, local
midnight), including the rollover of out-of-range month indices and days. -/
def mkDateJS (y mIdx d : Int) : Int :=
  daysFromCivil (y + mIdx / 12) (mIdx % 12 + 1) d * msPerDay

/-- Sanity anchor for the civil-date arithmetic: the epoch. -/
theorem mkDateJS_epoch : mkDateJS 1970 0 1 = 0 := by decide

/-- Month index for a three-letter month abbreviation, case-insensitively, as
the V8 date-string parser accepts in `new Date("Aug 15, 2025")`. -/
def monthIdxOfAbbr (s : String) : Option Int :=
  let u := String.mk (jsUpper s.toList)
  if u = "JAN" then some 0 else if u = "FEB" then some 1
  else if u = "MAR" then some 2 else if u = "APR" then some 3
  else if u = "MAY" then some 4 else if u = "JUN" then some 5
  else if u = "JUL" then some 6 else if u = "AUG" then some 7
  else if u = "SEP" then some 8 else if u = "OCT" then some 9
  else if u = "NOV" then some 10 else if u = "DEC" then some 11
  else none

/-- Date branch of `parseCsvData` (App.jsx:204-214) for a Start Date or End
Date cell. An `MM/DD/YYYY` match becomes `new Date(yyyy, mm - 1, dd)`; a
`Mon-DD` match becomes `new Date("Mon DD, currentYear")`, which is a valid
`Date` when the three letters are a month abbreviation and the day is in
1..31 and an `Invalid Date` otherwise; every other value, the empty string
included, is left in the row as the raw string. -/
def parseDateField (currentYear : Int) (value : String) : JSVal :=
  if value = "" then .jstr value
  else if matchMMDDYYYY value then
    match splitChar '/' value.toList with
    | [a, b, c] =>
        .jdate (mkDateJS (natOfDigits c) ((natOfDigits a : Int) - 1) (natOfDigits b))
    | _ => .jstr value
  else if matchMonDD value then
    match splitChar '-' value.toList with
    | [a, b] =>
        match monthIdxOfAbbr (String.mk a) with
        | some mi =>
            if 1 ≤ natOfDigits b ∧ natOfDigits b ≤ 31 then
              .jdate (mkDateJS currentYear mi (natOfDigits b))
            else .jinvalidDate
        | none => .jinvalidDate
    | _ => .jstr value
  else .jstr value

/-- C6 counterexample: an input matching neither date format is left in the
row as the raw string, not turned into `null` as the claim states. -/
theorem c6_parseDateField_counterexample :
    parseDateField 2025 "next week" = JSVal.jstr "next week" ∧
    JSVal.jstr "next week" ≠ JSVal.jnull := ⟨by decide, by decide⟩

/-- C6 as amended. Date parsing accepts the `MM/DD/YYYY` format and the
`Mon-DD` format (year taken from the reference year; an unrecognized
three-letter prefix or an out-of-range day produces an `Invalid Date`
object), and every input that matches neither format, or is empty, keeps the
raw string value — a non-`Date` value the downstream `instanceof` guards
treat as absent — never `null` and never a raised error. -/
theorem c6_parseDateField_amended (cy : Int) (v : String) :
    parseDateField cy v ≠ JSVal.jnull ∧
    (v = "" → parseDateField cy v = .jstr "") ∧
    (matchMMDDYYYY v = false → matchMonDD v = false →
      parseDateField cy v = .jstr v) ∧
    (matchMMDDYYYY v = true → ∃ t : Int, parseDateField cy v = .jdate t) ∧
    (matchMMDDYYYY v = false → matchMonDD v = true →
      (∃ t : Int, parseDateField cy v = .jdate t) ∨
        parseDateField cy v = .jinvalidDate) ∧
    parseDateField 2025 "01/15/2025" = .jdate (mkDateJS 2025 0 15) ∧
    parseDateField 2025 "Aug-15" = .jdate (mkDateJS 2025 7 15) := by
  refine ⟨?_, ?_, ?_, ?_, ?_, by decide, by decide⟩
  · unfold parseDateField
    by_cases he : v = ""
    · simp [he]
    · rw [if_neg he]
      by_cases h1 : matchMMDDYYYY v
      · rw [if_pos h1]
        rcases splitChar '/' v.toList with _ | ⟨a, _ | ⟨b, _ | ⟨c, _ | _⟩⟩⟩ <;> simp
      · rw [if_neg h1]
        by_cases h2 : matchMonDD v
        · rw [if_pos h2]
          rcases splitChar '-' v.toList with _ | ⟨a, _ | ⟨b, _ | _⟩⟩ <;>
            try simp
          rcases monthIdxOfAbbr (String.mk a) with _ | mi <;> simp
          by_cases hd : 1 ≤ natOfDigits b ∧ natOfDigits b ≤ 31 <;> simp [hd]
        · simp [h2]
  · intro he; subst he; rfl
  · intro h1 h2
    unfold parseDateField
    by_cases he : v = ""
    · simp [he]
    · rw [if_neg he, if_neg (by simp [h1]), if_neg (by simp [h2])]
  · intro h1
    have hne : v ≠ "" := by
      intro he; subst he; exact absurd h1 (by decide)
    unfold parseDateField
    rw [if_neg hne, if_pos h1]
    unfold matchMMDDYYYY at h1
    split at h1
    · exact ⟨_, rfl⟩
    · simp at h1
  · intro h1 h2
    have hne : v ≠ "" := by
      intro he; subst he; exact absurd h2 (by decide)
    unfold parseDateField
    rw [if_neg hne, if_neg (by simp [h1]), if_pos h2]
    unfold matchMonDD at h2
    split at h2
    · rename_i a b heq
      cases hmi : monthIdxOfAbbr (String.mk a) with
      | none => exact Or.inr rfl
      | some mi =>
        by_cases hd : 1 ≤ natOfDigits b ∧ natOfDigits b ≤ 31
        · exact Or.inl ⟨mkDateJS cy mi (natOfDigits b), by simp [hd]⟩
        · exact Or.inr (by simp [hd])
    · simp at h2

/-- Witness for C6 as amended: the empty cell and a non-matching cell both
stay raw strings. -/
theorem c6_parseDateField_amended_witness :
    parseDateField 2025 "" = .jstr "" ∧
    parseDateField 2025 "soon" = .jstr "soon" ∧
    parseDateField 2025 "soon" ≠ JSVal.jnull :=
  ⟨(c6_parseDateField_amended 2025 "").2.1 rfl,
   (c6_parseDateField_amended 2025 "soon").2.2.1 (by decide) (by decide),
   (c6_parseDateField_amended 2025 "soon").1⟩

/-! Allocation records and the date-range prorater (App.jsx:252-283). -/

/-- Allocation row as it leaves `parseCsvData`: the Resource, Name,
Project (from Task) and Month columns as strings, the Start Date and End
Date cells as `JSVal` (a `Date` when parsed, otherwise the raw string), and
Estimated Hours as the parsed number (`parseFloat(value) || 0`). -/
structure RawAlloc where
  resource : String
  name : String
  projectFromTask : String
  month : String
  startDate : JSVal
  endDate : JSVal
  hours : Rat
deriving DecidableEq, Repr

/-- Body of the `allocationsData.forEach` in date-range mode
(App.jsx:258-282). Requires both date cells to be valid `Date`s
(`instanceof` and `!isNaN`); computes the overlap of the allocation span
with the period, normalized to local midnight; keeps the allocation when the
overlap is nonempty, the allocation spans a positive number of business
days, and the prorated hours `(estimatedHours / totalAllocBusinessDays) *
overlapBusinessDays` are positive, replacing Estimated Hours by the prorated
value; otherwise drops the row. -/
def prorateAllocation (startPeriod endPeriod : Int) (a : RawAlloc) :
    Option RawAlloc :=
  match a.startDate, a.endDate with
  | .jdate s, .jdate e =>
    if normDate (max s startPeriod) ≤ normDate (min e endPeriod) then
      if 0 < getBusinessDays s e then
        if 0 < a.hours / (getBusinessDays s e : Rat) *
            (getBusinessDays (normDate (max s startPeriod))
              (normDate (min e endPeriod)) : Rat) then
          some { a with hours := a.hours / (getBusinessDays s e : Rat) *
            (getBusinessDays (normDate (max s startPeriod))
              (normDate (min e endPeriod)) : Rat) }
        else none
      else none
    else none
  | _, _ => none

/-- Date-range filtering pass: `filteredAllocations` built by the `forEach`
push (App.jsx:258-282), in input order. -/
def filterDateRange (sp ep : Int) (L : List RawAlloc) : List RawAlloc :=
  L.filterMap (prorateAllocation sp ep)

/-- Month-mode filtering (App.jsx:250): exact match on the Month column. -/
def filterByMonth (selectedMonth : String) (L : List RawAlloc) :
    List RawAlloc :=
  L.filter (fun a => a.month == selectedMonth)

/-- Concrete allocation for the prorating example: Mon Jan 5 1970 through
Fri Jan 16 1970 is a span of 10 business days, with 40 estimated hours. -/
def exAlloc : RawAlloc :=
  { resource := "Jane Doe", name := "ProjX: Build",
    projectFromTask := "ProjX: Build", month := "",
    startDate := .jdate (4 * msPerDay), endDate := .jdate (15 * msPerDay),
    hours := 40 }

/-- Concrete evaluation of the prorater on the example allocation against
the period Mon Jan 5 1970 - Wed Jan 7 1970: the overlap covers 3 of the 10
business days, so 40 estimated hours prorate to 12. -/
theorem prorate_example_eval :
    prorateAllocation (4 * msPerDay) (6 * msPerDay) exAlloc =
      some { exAlloc with hours := 12 } := by
  have hbd1 : getBusinessDays (4 * msPerDay) (15 * msPerDay) = 10 := by decide
  have hbd2 : getBusinessDays (normDate (max (4 * msPerDay) (4 * msPerDay)))
      (normDate (min (15 * msPerDay) (6 * msPerDay))) = 3 := by decide
  have hcond : normDate (max (4 * msPerDay) (4 * msPerDay)) ≤
      normDate (min (15 * msPerDay) (6 * msPerDay)) := by decide
  have hstart : exAlloc.startDate = .jdate (4 * msPerDay) := rfl
  have hend : exAlloc.endDate = .jdate (15 * msPerDay) := rfl
  have hhours : exAlloc.hours = (40 : Rat) := rfl
  unfold prorateAllocation
  simp only [hstart, hend]
  rw [hbd1, hbd2, hhours, if_pos hcond]
  have hval : (40 : Rat) / ((10 : Nat) : Rat) * ((3 : Nat) : Rat) = 12 := by
    norm_num
  rw [hval]
  rw [if_pos (by norm_num : (0 : Nat) < 10), if_pos (by norm_num : (0 : Rat) < 12)]

/-- C1. In date-range mode, for an allocation whose start and end cells hold
valid dates (at local midnight, as every date leaving the parser is), the
prorater forms the overlap `[max(allocStart, periodStart), min(allocEnd,
periodEnd)]`, skips the allocation when that overlap is empty or when the
allocation spans zero business days, emits the allocation with
`estimatedHours * overlapBusinessDays / totalAllocBusinessDays` hours when
that value is positive and drops it when it is `≤ 0`; and the allocation
spanning 10 business days with 40 estimated hours overlapping the period
Mon Jan 5 1970 - Wed Jan 7 1970 in exactly 3 business days contributes
exactly 12 prorated hours. -/
theorem c1_prorater_spec (sp ep s e : Int) (a : RawAlloc)
    (hs : a.startDate = .jdate s) (he : a.endDate = .jdate e)
    (hsn : normDate s = s) (hen : normDate e = e)
    (hspn : normDate sp = sp) (hepn : normDate ep = ep) :
    (min e ep < max s sp → prorateAllocation sp ep a = none) ∧
    (getBusinessDays s e = 0 → prorateAllocation sp ep a = none) ∧
    (max s sp ≤ min e ep → 0 < getBusinessDays s e →
      (0 < a.hours * (getBusinessDays (max s sp) (min e ep) : Rat) /
          (getBusinessDays s e : Rat) →
        prorateAllocation sp ep a = some { a with
          hours := a.hours * (getBusinessDays (max s sp) (min e ep) : Rat) /
            (getBusinessDays s e : Rat) }) ∧
      (a.hours * (getBusinessDays (max s sp) (min e ep) : Rat) /
          (getBusinessDays s e : Rat) ≤ 0 →
        prorateAllocation sp ep a = none)) ∧
    prorateAllocation (4 * msPerDay) (6 * msPerDay) exAlloc =
      some { exAlloc with hours := 12 } := by
  have hmax : normDate (max s sp) = max s sp := by
    rcases max_choice s sp with h | h <;> rw [h] <;> assumption
  have hmin : normDate (min e ep) = min e ep := by
    rcases min_choice e ep with h | h <;> rw [h] <;> assumption
  have hform : a.hours / (getBusinessDays s e : Rat) *
      (getBusinessDays (max s sp) (min e ep) : Rat) =
      a.hours * (getBusinessDays (max s sp) (min e ep) : Rat) /
        (getBusinessDays s e : Rat) := by
    rw [div_mul_eq_mul_div]
  refine ⟨?_, ?_, ?_, prorate_example_eval⟩
  · intro h
    unfold prorateAllocation
    simp only [hs, he, hmax, hmin]
    rw [if_neg (not_le.mpr h)]
  · intro h
    unfold prorateAllocation
    simp only [hs, he, hmax, hmin]
    by_cases h1 : max s sp ≤ min e ep
    · rw [if_pos h1, if_neg (by omega)]
    · rw [if_neg h1]
  · intro h1 h2
    constructor
    · intro h3
      unfold prorateAllocation
      simp only [hs, he, hmax, hmin]
      rw [if_pos h1, if_pos h2, hform, if_pos h3]
    · intro h3
      unfold prorateAllocation
      simp only [hs, he, hmax, hmin]
      rw [if_pos h1, if_pos h2, hform, if_neg (not_lt.mpr h3)]

/-- Witness for C1: the example allocation against the period
Mon Jan 5 1970 - Wed Jan 7 1970, through the theorem's positive-prorate
branch. -/
theorem c1_prorater_spec_witness :
    prorateAllocation (4 * msPerDay) (6 * msPerDay) exAlloc =
      some { exAlloc with
        hours := exAlloc.hours *
          (getBusinessDays (max (4 * msPerDay) (4 * msPerDay))
            (min (15 * msPerDay) (6 * msPerDay)) : Rat) /
          (getBusinessDays (4 * msPerDay) (15 * msPerDay) : Rat) } := by
  have h := ((c1_prorater_spec (4 * msPerDay) (6 * msPerDay) (4 * msPerDay)
      (15 * msPerDay) exAlloc rfl rfl (by decide) (by decide) (by decide)
      (by decide)).2.2.1 (by decide) (by decide)).1
  apply h
  have hbd1 : getBusinessDays (4 * msPerDay) (15 * msPerDay) = 10 := by decide
  have hbd2 : getBusinessDays (max (4 * msPerDay) (4 * msPerDay))
      (min (15 * msPerDay) (6 * msPerDay)) = 3 := by decide
  have hhours : exAlloc.hours = (40 : Rat) := rfl
  rw [hbd1, hbd2, hhours]
  norm_num

/-- C9. Whenever the prorater emits a derived allocation, its prorated hours
are at most the original estimated hours (for nonnegative estimates): the
normalized overlap is contained in the allocation's own day interval, the
business-day count is monotone under interval inclusion, and scaling by
`overlap / total ≤ 1` cannot increase a nonnegative quantity. -/
theorem c9_prorated_le_estimated (sp ep : Int) (a b : RawAlloc) (s e : Int)
    (hs : a.startDate = .jdate s) (he : a.endDate = .jdate e)
    (hh : 0 ≤ a.hours) (hres : prorateAllocation sp ep a = some b) :
    b.hours ≤ a.hours := by
  unfold prorateAllocation at hres
  simp only [hs, he] at hres
  by_cases h1 : normDate (max s sp) ≤ normDate (min e ep)
  · rw [if_pos h1] at hres
    by_cases h2 : 0 < getBusinessDays s e
    · rw [if_pos h2] at hres
      by_cases h3 : 0 < a.hours / (getBusinessDays s e : Rat) *
          (getBusinessDays (normDate (max s sp)) (normDate (min e ep)) : Rat)
      · rw [if_pos h3] at hres
        have hb := Option.some.inj hres
        have hle : getBusinessDays (normDate (max s sp)) (normDate (min e ep)) ≤
            getBusinessDays s e := by
          apply getBusinessDays_subinterval
          · rw [dayOf_normDate]
            exact dayOf_mono (le_max_left s sp)
          · rw [dayOf_normDate]
            exact dayOf_mono (min_le_left e ep)
          · exact dayOf_mono h1
        have ht : (0 : Rat) < (getBusinessDays s e : Rat) := by exact_mod_cast h2
        have ho : ((getBusinessDays (normDate (max s sp))
            (normDate (min e ep)) : Nat) : Rat) ≤ (getBusinessDays s e : Rat) := by
          exact_mod_cast hle
        rw [← hb]
        calc a.hours / (getBusinessDays s e : Rat) *
            (getBusinessDays (normDate (max s sp)) (normDate (min e ep)) : Rat)
            ≤ a.hours / (getBusinessDays s e : Rat) * (getBusinessDays s e : Rat) :=
              mul_le_mul_of_nonneg_left ho (div_nonneg hh ht.le)
          _ = a.hours := div_mul_cancel₀ _ ht.ne'
      · rw [if_neg h3] at hres; exact absurd hres (by simp)
    · rw [if_neg h2] at hres; exact absurd hres (by simp)
  · rw [if_neg h1] at hres; exact absurd hres (by simp)

/-- Witness for C9: the example allocation emits 12 prorated hours, at most
its 40 estimated hours. -/
theorem c9_prorated_le_estimated_witness :
    ({ exAlloc with hours := (12 : Rat) } : RawAlloc).hours ≤ exAlloc.hours :=
  c9_prorated_le_estimated (4 * msPerDay) (6 * msPerDay) exAlloc
    { exAlloc with hours := (12 : Rat) } (4 * msPerDay) (15 * msPerDay)
    rfl rfl (by norm_num [exAlloc]) prorate_example_eval

/-! Classification and per-employee aggregation (App.jsx:285-345). -/

/-- Roster entry held in `namesMap` (App.jsx:227-237): department, title and
the parsed Percentage Billable. -/
structure Person where
  department : String
  title : String
  billingTargetPercent : Rat
deriving DecidableEq, Repr

/-- Per-project breakdown entry (App.jsx:334-342). -/
structure ProjEntry where
  name : String
  task : String
  hours : Rat
  isBillable : Bool
deriving DecidableEq, Repr

/-- Per-employee accumulator created at App.jsx:302-313: the spread roster
fields, the display name, the five running hour totals and the per-project
map (as an insertion-ordered association list). -/
structure Emp where
  department : String
  title : String
  billingTargetPercent : Rat
  nameForDisplay : String
  totalBookedHours : Rat
  bookedBillable : Rat
  bookedNonBillable : Rat
  ptoHours : Rat
  intHours : Rat
  projects : List (String × ProjEntry)
deriving DecidableEq, Repr

/-- Include-toggles state (App.jsx:148): `filters.env` and `filters.pnb`. -/
structure Filters where
  env : Bool
  pnb : Bool
deriving DecidableEq, Repr

/-- Classification flag `hasPTO` (App.jsx:290):
`projectFromTask.includes("[PTO]")`. -/
def hasPTO (a : RawAlloc) : Bool :=
  containsSubL a.projectFromTask.toList "[PTO]".toList

/-- Classification flag `hasINT` (App.jsx:291). -/
def hasINT (a : RawAlloc) : Bool :=
  containsSubL a.projectFromTask.toList "[INT]".toList

/-- Classification flag `isENV` (App.jsx:292). -/
def hasENV (a : RawAlloc) : Bool :=
  containsSubL a.projectFromTask.toList "[ENV]".toList

/-- Classification flag `isPNB` (App.jsx:293): case-insensitive containment
of `PNB:` via `toUpperCase().includes("PNB:")`. -/
def hasPNB (a : RawAlloc) : Bool :=
  containsSubL (jsUpper a.projectFromTask.toList) "PNB:".toList

/-- Category assigned in the per-project key (App.jsx:332): PTO first, then
INT, then PNB, otherwise ordinary (GEN). -/
def keySuffix (a : RawAlloc) : String :=
  if hasPTO a then "PTO" else if hasINT a then "INT"
  else if hasPNB a then "PNB" else "GEN"

/-- JavaScript `Map.set` on an insertion-ordered association list: a present
key is updated in place, an absent key is appended. -/
def setAssoc {β : Type} (m : List (String × β)) (k : String) (v : β) :
    List (String × β) :=
  if (m.lookup k).isSome then
    m.map (fun p => if p.1 = k then (k, v) else p)
  else m ++ [(k, v)]

/-- Truncated project name: `(s || "").split(":")[0].trim()`
(App.jsx:331,336-337). -/
def truncName (s : String) : String :=
  String.mk (jsTrim ((splitChar ':' s.toList).getD 0 []))

/-- Fresh accumulator for an employee first seen through `alloc`
(App.jsx:303-312). -/
def initEmp (pd : Person) (a : RawAlloc) : Emp :=
  { department := pd.department, title := pd.title,
    billingTargetPercent := pd.billingTargetPercent,
    nameForDisplay := a.resource,
    totalBookedHours := 0, bookedBillable := 0, bookedNonBillable := 0,
    ptoHours := 0, intHours := 0, projects := [] }

/-- Accumulation of one allocation into an employee record
(App.jsx:314-344): PTO hours go to `ptoHours` only, else INT hours to
`intHours` only, else the hours are booked, billable exactly when the label
is not PNB; then the per-project entry keyed by
resource-truncatedName-category is created if absent and its hours bumped. -/
def addAlloc (a : RawAlloc) (e : Emp) : Emp :=
  let hours := a.hours
  let e1 :=
    if hasPTO a then { e with ptoHours := e.ptoHours + hours }
    else if hasINT a then { e with intHours := e.intHours + hours }
    else if !hasPNB a then
      { e with totalBookedHours := e.totalBookedHours + hours,
               bookedBillable := e.bookedBillable + hours }
    else
      { e with totalBookedHours := e.totalBookedHours + hours,
               bookedNonBillable := e.bookedNonBillable + hours }
  let truncated := truncName a.name
  let taskTrunc := truncName a.projectFromTask
  let projectKey := normalizeName a.resource ++ "-" ++ truncated ++ "-" ++
    keySuffix a
  let entry0 : ProjEntry :=
    { name := if truncated = "" then taskTrunc else truncated,
      task := taskTrunc, hours := 0,
      isBillable := !(hasPTO a || hasINT a || hasPNB a) }
  let ps := if (e1.projects.lookup projectKey).isSome then e1.projects
            else e1.projects ++ [(projectKey, entry0)]
  { e1 with projects := ps.map (fun p =>
      if p.1 = projectKey then (p.1, { p.2 with hours := p.2.hours + hours })
      else p) }

/-- Body of the `filteredAllocations.forEach` (App.jsx:286-345): the env and
pnb toggle drops on the raw flags, the roster lookup by normalized resource
name, the department filter, and the accumulation into the employee map. -/
def processAlloc (cfg : Filters) (nm : String → Option Person) (dept : String)
    (m : List (String × Emp)) (a : RawAlloc) : List (String × Emp) :=
  if !cfg.env && hasENV a then m
  else if !cfg.pnb && hasPNB a then m
  else
    match nm (normalizeName a.resource) with
    | none => m
    | some pd =>
      if dept == "All" || pd.department == dept then
        setAssoc m (normalizeName a.resource)
          (addAlloc a ((m.lookup (normalizeName a.resource)).getD (initEmp pd a)))
      else m

/-- The whole `employeeMetrics` pass over the filtered allocations. -/
def foldAllocs (cfg : Filters) (nm : String → Option Person) (dept : String)
    (L : List RawAlloc) : List (String × Emp) :=
  L.foldl (processAlloc cfg nm dept) []

/-- True when the allocation survives both toggle drops
(App.jsx:296-297). -/
def passes (cfg : Filters) (a : RawAlloc) : Bool :=
  !(!cfg.env && hasENV a) && !(!cfg.pnb && hasPNB a)

/-- True when the allocation contributes to the employee record at key `k`:
it survives the toggles, its normalized resource is `k`, it has a roster
match and that match passes the department filter. -/
def attrib (cfg : Filters) (nm : String → Option Person) (dept : String)
    (k : String) (a : RawAlloc) : Bool :=
  passes cfg a && (normalizeName a.resource == k) &&
    (match nm (normalizeName a.resource) with
     | some pd => dept == "All" || pd.department == dept
     | none => false)

/-- Effect of one `processAlloc` step on the record at a single key. -/
def stepAt (cfg : Filters) (nm : String → Option Person) (dept : String)
    (k : String) (o : Option Emp) (a : RawAlloc) : Option Emp :=
  if attrib cfg nm dept k a then
    match nm k with
    | some pd => some (addAlloc a (o.getD (initEmp pd a)))
    | none => o
  else o

/-- Field of an optional employee record, 0 when absent. -/
def optQ (f : Emp → Rat) : Option Emp → Rat
  | some e => f e
  | none => 0

/-- Sum of the hours of the allocations selected by `p`, in list order. -/
def sumHours (p : RawAlloc → Bool) (L : List RawAlloc) : Rat :=
  (L.map (fun a => if p a then a.hours else 0)).sum

theorem sumHours_nil (p : RawAlloc → Bool) : sumHours p [] = 0 := rfl

theorem sumHours_cons (p : RawAlloc → Bool) (a : RawAlloc) (L : List RawAlloc) :
    sumHours p (a :: L) = (if p a then a.hours else 0) + sumHours p L := by
  simp [sumHours]

theorem sumHours_congr {p q : RawAlloc → Bool} (L : List RawAlloc)
    (h : ∀ a, p a = q a) : sumHours p L = sumHours q L := by
  unfold sumHours
  congr 1
  apply List.map_congr_left
  intro a _
  rw [h a]

theorem sumHours_split (p q : RawAlloc → Bool) (L : List RawAlloc) :
    sumHours p L =
      sumHours (fun a => p a && q a) L + sumHours (fun a => p a && !q a) L := by
  induction L with
  | nil => simp [sumHours_nil]
  | cons a L ih =>
    rw [sumHours_cons, sumHours_cons, sumHours_cons, ih]
    by_cases hp : p a <;> by_cases hq : q a <;> simp [hp, hq] <;> ring

theorem sumHours_mono {p q : RawAlloc → Bool} (L : List RawAlloc)
    (hL : ∀ a ∈ L, 0 ≤ a.hours) (hpq : ∀ a, p a = true → q a = true) :
    sumHours p L ≤ sumHours q L := by
  induction L with
  | nil => simp [sumHours_nil]
  | cons a L ih =>
    rw [sumHours_cons, sumHours_cons]
    have ha := hL a (List.mem_cons_self a L)
    have ih' := ih (fun b hb => hL b (List.mem_cons_of_mem a hb))
    have hstep : (if p a then a.hours else 0) ≤ (if q a then a.hours else 0) := by
      by_cases hp : p a
      · rw [if_pos hp, if_pos (hpq a hp)]
      · rw [if_neg hp]
        by_cases hq : q a <;> simp [hq, ha]
    exact add_le_add hstep ih'

theorem lookup_map_upd_ne {β : Type} (m : List (String × β)) (k k' : String)
    (v : β) (h : k' ≠ k) :
    (m.map (fun p => if p.1 = k then (k, v) else p)).lookup k' = m.lookup k' := by
  induction m with
  | nil => rfl
  | cons p ps ih =>
    rcases p with ⟨k1, v1⟩
    by_cases hp : k1 = k
    · have hb : (k' == k) = false := by simp [h]
      simp [List.lookup_cons, hp, ih, hb]
    · simp [List.lookup_cons, hp, ih]

theorem lookup_map_upd_eq {β : Type} (m : List (String × β)) (k : String)
    (v : β) (h : (m.lookup k).isSome) :
    (m.map (fun p => if p.1 = k then (k, v) else p)).lookup k = some v := by
  induction m with
  | nil => simp at h
  | cons p ps ih =>
    rcases p with ⟨k1, v1⟩
    by_cases hp : k1 = k
    · simp [List.lookup_cons, hp]
    · have hne : (k == k1) = false := by simp [Ne.symm hp]
      simp only [List.lookup_cons, hne] at h
      simp only [List.map_cons, if_neg hp, List.lookup_cons, hne]
      exact ih h

theorem lookup_setAssoc {β : Type} (m : List (String × β)) (k k' : String)
    (v : β) :
    (setAssoc m k v).lookup k' = if k' = k then some v else m.lookup k' := by
  unfold setAssoc
  by_cases hp : (m.lookup k).isSome
  · rw [if_pos hp]
    by_cases hk : k' = k
    · subst hk
      rw [if_pos rfl]
      exact lookup_map_upd_eq m k' v hp
    · rw [if_neg hk]
      exact lookup_map_upd_ne m k k' v hk
  · rw [if_neg hp, List.lookup_append]
    cases hq : m.lookup k' with
    | some w =>
      have hk : k' ≠ k := by
        intro he; subst he; rw [hq] at hp; simp at hp
      simp [hq, hk]
    | none =>
      by_cases hk : k' = k
      · simp [hq, hk, List.lookup_cons]
      · have hb : (k' == k) = false := by simp [hk]
        simp [hq, hk, List.lookup_cons, hb]

theorem processAlloc_lookup (cfg : Filters) (nm : String → Option Person)
    (dept : String) (m : List (String × Emp)) (a : RawAlloc) (k : String) :
    (processAlloc cfg nm dept m a).lookup k =
      stepAt cfg nm dept k (m.lookup k) a := by
  unfold processAlloc stepAt attrib passes
  by_cases h1 : (!cfg.env && hasENV a) = true
  · simp [h1]
  · replace h1 : (!cfg.env && hasENV a) = false := by
      cases hx : (!cfg.env && hasENV a) <;> simp_all
    by_cases h2 : (!cfg.pnb && hasPNB a) = true
    · simp [h1, h2]
    · replace h2 : (!cfg.pnb && hasPNB a) = false := by
        cases hx : (!cfg.pnb && hasPNB a) <;> simp_all
      cases hnm : nm (normalizeName a.resource) with
      | none => simp [h1, h2, hnm]
      | some pd =>
        by_cases h3 : (dept == "All" || pd.department == dept) = true
        · by_cases hk : normalizeName a.resource = k
          · subst hk
            simp [h1, h2, hnm, h3, lookup_setAssoc]
          · have hk' : (normalizeName a.resource == k) = false := by simp [hk]
            have hk2 : ¬(k = normalizeName a.resource) := fun he => hk he.symm
            simp [h1, h2, hnm, h3, hk', hk2, lookup_setAssoc]
        · replace h3 : (dept == "All" || pd.department == dept) = false := by
            cases hx : (dept == "All" || pd.department == dept) <;> simp_all
          simp [h1, h2, hnm, h3]

theorem foldAllocs_fold_lookup (cfg : Filters) (nm : String → Option Person)
    (dept : String) :
    ∀ (L : List RawAlloc) (m : List (String × Emp)) (k : String),
      (L.foldl (processAlloc cfg nm dept) m).lookup k =
        L.foldl (stepAt cfg nm dept k) (m.lookup k) := by
  intro L
  induction L with
  | nil => intro m k; rfl
  | cons a L ih =>
    intro m k
    simp only [List.foldl_cons]
    rw [ih, processAlloc_lookup]

theorem foldAllocs_lookup (cfg : Filters) (nm : String → Option Person)
    (dept : String) (L : List RawAlloc) (k : String) :
    (foldAllocs cfg nm dept L).lookup k =
      L.foldl (stepAt cfg nm dept k) none := by
  unfold foldAllocs
  rw [foldAllocs_fold_lookup]
  rfl

theorem attrib_nm_some {cfg : Filters} {nm : String → Option Person}
    {dept k : String} {a : RawAlloc}
    (hA : attrib cfg nm dept k a = true) : ∃ pd, nm k = some pd := by
  unfold attrib at hA
  simp only [Bool.and_eq_true] at hA
  obtain ⟨⟨hp, hr⟩, hm⟩ := hA
  have hk : normalizeName a.resource = k := by simpa using hr
  rw [hk] at hm
  cases hq : nm k with
  | none => rw [hq] at hm; simp at hm
  | some pd => exact ⟨pd, rfl⟩

theorem optQ_stepAt (cfg : Filters) (nm : String → Option Person)
    (dept k : String) (f : Emp → Rat) (pf : RawAlloc → Bool)
    (hadd : ∀ a e, f (addAlloc a e) = f e + (if pf a then a.hours else 0))
    (hinit : ∀ pd a, f (initEmp pd a) = 0) (o : Option Emp) (a : RawAlloc) :
    optQ f (stepAt cfg nm dept k o a) =
      optQ f o + (if attrib cfg nm dept k a && pf a then a.hours else 0) := by
  unfold stepAt
  by_cases hA : attrib cfg nm dept k a = true
  · rw [if_pos hA]
    obtain ⟨pd, hpd⟩ := attrib_nm_some hA
    rw [hpd]
    cases o with
    | none => simp [optQ, hadd, hinit, hA]
    | some e => simp [optQ, hadd, hA]
  · rw [if_neg hA]
    have hb : (attrib cfg nm dept k a && pf a) = false := by
      cases hx : attrib cfg nm dept k a
      · simp
      · exact absurd hx hA
    rw [hb]
    simp

theorem optQ_foldl_stepAt (cfg : Filters) (nm : String → Option Person)
    (dept k : String) (f : Emp → Rat) (pf : RawAlloc → Bool)
    (hadd : ∀ a e, f (addAlloc a e) = f e + (if pf a then a.hours else 0))
    (hinit : ∀ pd a, f (initEmp pd a) = 0) :
    ∀ (L : List RawAlloc) (o : Option Emp),
      optQ f (L.foldl (stepAt cfg nm dept k) o) =
        optQ f o + sumHours (fun a => attrib cfg nm dept k a && pf a) L := by
  intro L
  induction L with
  | nil => intro o; simp [sumHours_nil]
  | cons a L ih =>
    intro o
    simp only [List.foldl_cons]
    rw [ih, optQ_stepAt cfg nm dept k f pf hadd hinit, sumHours_cons]
    ring

/-- Value of one hour field of the aggregation result at key `k`, as a
filtered sum over the allocation list. -/
theorem foldAllocs_field (cfg : Filters) (nm : String → Option Person)
    (dept k : String) (L : List RawAlloc) (f : Emp → Rat) (pf : RawAlloc → Bool)
    (hadd : ∀ a e, f (addAlloc a e) = f e + (if pf a then a.hours else 0))
    (hinit : ∀ pd a, f (initEmp pd a) = 0) :
    optQ f ((foldAllocs cfg nm dept L).lookup k) =
      sumHours (fun a => attrib cfg nm dept k a && pf a) L := by
  rw [foldAllocs_lookup, optQ_foldl_stepAt cfg nm dept k f pf hadd hinit]
  simp [optQ]

theorem addAlloc_totalBooked (a : RawAlloc) (e : Emp) :
    (addAlloc a e).totalBookedHours =
      e.totalBookedHours + (if !hasPTO a && !hasINT a then a.hours else 0) := by
  unfold addAlloc
  by_cases h1 : hasPTO a <;> by_cases h2 : hasINT a <;>
    by_cases h3 : hasPNB a <;> simp [h1, h2, h3]

theorem addAlloc_billable (a : RawAlloc) (e : Emp) :
    (addAlloc a e).bookedBillable =
      e.bookedBillable +
        (if !hasPTO a && !hasINT a && !hasPNB a then a.hours else 0) := by
  unfold addAlloc
  by_cases h1 : hasPTO a <;> by_cases h2 : hasINT a <;>
    by_cases h3 : hasPNB a <;> simp [h1, h2, h3]

theorem addAlloc_nonBillable (a : RawAlloc) (e : Emp) :
    (addAlloc a e).bookedNonBillable =
      e.bookedNonBillable +
        (if !hasPTO a && !hasINT a && hasPNB a then a.hours else 0) := by
  unfold addAlloc
  by_cases h1 : hasPTO a <;> by_cases h2 : hasINT a <;>
    by_cases h3 : hasPNB a <;> simp [h1, h2, h3]

theorem addAlloc_pto (a : RawAlloc) (e : Emp) :
    (addAlloc a e).ptoHours =
      e.ptoHours + (if hasPTO a then a.hours else 0) := by
  unfold addAlloc
  by_cases h1 : hasPTO a <;> by_cases h2 : hasINT a <;>
    by_cases h3 : hasPNB a <;> simp [h1, h2, h3]

theorem addAlloc_int (a : RawAlloc) (e : Emp) :
    (addAlloc a e).intHours =
      e.intHours + (if !hasPTO a && hasINT a then a.hours else 0) := by
  unfold addAlloc
  by_cases h1 : hasPTO a <;> by_cases h2 : hasINT a <;>
    by_cases h3 : hasPNB a <;> simp [h1, h2, h3]

theorem initEmp_totalBooked (pd : Person) (a : RawAlloc) :
    (initEmp pd a).totalBookedHours = 0 := rfl

theorem initEmp_billable (pd : Person) (a : RawAlloc) :
    (initEmp pd a).bookedBillable = 0 := rfl

theorem initEmp_nonBillable (pd : Person) (a : RawAlloc) :
    (initEmp pd a).bookedNonBillable = 0 := rfl

theorem initEmp_pto (pd : Person) (a : RawAlloc) :
    (initEmp pd a).ptoHours = 0 := rfl

theorem initEmp_int (pd : Person) (a : RawAlloc) :
    (initEmp pd a).intHours = 0 := rfl

/-- C3. Every employee record produced by the aggregation pass satisfies
`totalBookedHours = bookedBillableHours + bookedNonBillableHours`, and each
of the five hour totals is exactly the sum of the attributed allocations of
its own category: PTO hours and INT hours land in `ptoHours` and `intHours`
and contribute to none of the three booked-hour fields. -/
theorem c3_employee_invariant (cfg : Filters) (nm : String → Option Person)
    (dept : String) (L : List RawAlloc) (k : String) (e : Emp)
    (h : (foldAllocs cfg nm dept L).lookup k = some e) :
    e.totalBookedHours = e.bookedBillable + e.bookedNonBillable ∧
    e.totalBookedHours =
      sumHours (fun a => attrib cfg nm dept k a && (!hasPTO a && !hasINT a)) L ∧
    e.bookedBillable =
      sumHours (fun a => attrib cfg nm dept k a &&
        (!hasPTO a && !hasINT a && !hasPNB a)) L ∧
    e.bookedNonBillable =
      sumHours (fun a => attrib cfg nm dept k a &&
        (!hasPTO a && !hasINT a && hasPNB a)) L ∧
    e.ptoHours = sumHours (fun a => attrib cfg nm dept k a && hasPTO a) L ∧
    e.intHours =
      sumHours (fun a => attrib cfg nm dept k a && (!hasPTO a && hasINT a)) L := by
  have ht := foldAllocs_field cfg nm dept k L Emp.totalBookedHours
    (fun a => !hasPTO a && !hasINT a) addAlloc_totalBooked initEmp_totalBooked
  have hb := foldAllocs_field cfg nm dept k L Emp.bookedBillable
    (fun a => !hasPTO a && !hasINT a && !hasPNB a) addAlloc_billable
    initEmp_billable
  have hn := foldAllocs_field cfg nm dept k L Emp.bookedNonBillable
    (fun a => !hasPTO a && !hasINT a && hasPNB a) addAlloc_nonBillable
    initEmp_nonBillable
  have hp := foldAllocs_field cfg nm dept k L Emp.ptoHours hasPTO
    addAlloc_pto initEmp_pto
  have hi := foldAllocs_field cfg nm dept k L Emp.intHours
    (fun a => !hasPTO a && hasINT a) addAlloc_int initEmp_int
  rw [h] at ht hb hn hp hi
  simp only [optQ] at ht hb hn hp hi
  refine ⟨?_, ht, hb, hn, hp, hi⟩
  rw [ht, hb, hn,
    sumHours_split (fun a => attrib cfg nm dept k a && (!hasPTO a && !hasINT a))
      (fun a => !hasPNB a) L]
  congr 1
  · apply sumHours_congr
    intro a
    cases attrib cfg nm dept k a <;> cases hasPTO a <;> cases hasINT a <;>
      cases hasPNB a <;> rfl
  · apply sumHours_congr
    intro a
    cases attrib cfg nm dept k a <;> cases hasPTO a <;> cases hasINT a <;>
      cases hasPNB a <;> rfl

/-- Concrete roster entry and lookup used for witnesses. -/
def pdEx : Person :=
  { department := "Eng", title := "Engineer", billingTargetPercent := 1 }

/-- Roster lookup holding exactly JANE DOE, as built from a Names sheet row
`Doe, Jane`. -/
def nmEx : String → Option Person :=
  fun r => if r = "JANE DOE" then some pdEx else none

/-- Ordinary billable allocation of 8 hours for Jane Doe. -/
def allocBillable : RawAlloc :=
  { resource := "Jane Doe", name := "ProjX: Build",
    projectFromTask := "ProjX: Build", month := "Aug 2025",
    startDate := .jnull, endDate := .jnull, hours := 8 }

/-- Witness for C3: the record Jane Doe gets from one billable allocation
satisfies the booked-hours invariant. -/
theorem c3_employee_invariant_witness :
    (addAlloc allocBillable (initEmp pdEx allocBillable)).totalBookedHours =
      (addAlloc allocBillable (initEmp pdEx allocBillable)).bookedBillable +
      (addAlloc allocBillable (initEmp pdEx allocBillable)).bookedNonBillable :=
  (c3_employee_invariant ⟨false, false⟩ nmEx "All" [allocBillable]
    "JANE DOE" (addAlloc allocBillable (initEmp pdEx allocBillable)) rfl).1

theorem attrib_pnb_mono {env : Bool} {nm : String → Option Person}
    {dept k : String} {a : RawAlloc}
    (h : attrib ⟨env, false⟩ nm dept k a = true) :
    attrib ⟨env, true⟩ nm dept k a = true := by
  unfold attrib passes at h ⊢
  simp only [Bool.and_eq_true] at h ⊢
  obtain ⟨⟨⟨hp1, hp2⟩, hbeq⟩, hmatch⟩ := h
  exact ⟨⟨⟨hp1, by simp⟩, hbeq⟩, hmatch⟩

theorem attrib_pnb_eq_of_not_pnb {env : Bool} {nm : String → Option Person}
    {dept k : String} {a : RawAlloc} (h : hasPNB a = false) :
    attrib ⟨env, false⟩ nm dept k a = attrib ⟨env, true⟩ nm dept k a := by
  unfold attrib passes
  rw [h]
  simp

/-- C8. With the roster, allocation table (nonnegative hours, as the data
model specifies) and the other filters fixed, turning `includePnb` from
false to true never decreases any employee's `totalBookedHours`, and leaves
`bookedBillableHours` unchanged for every employee having no PNB-labeled
allocation. -/
theorem c8_pnb_toggle (nm : String → Option Person) (dept : String)
    (env : Bool) (L : List RawAlloc) (k : String)
    (hpos : ∀ a ∈ L, 0 ≤ a.hours) :
    optQ Emp.totalBookedHours
        ((foldAllocs ⟨env, false⟩ nm dept L).lookup k) ≤
      optQ Emp.totalBookedHours
        ((foldAllocs ⟨env, true⟩ nm dept L).lookup k) ∧
    ((∀ a ∈ L, normalizeName a.resource = k → hasPNB a = false) →
      optQ Emp.bookedBillable ((foldAllocs ⟨env, false⟩ nm dept L).lookup k) =
        optQ Emp.bookedBillable ((foldAllocs ⟨env, true⟩ nm dept L).lookup k)) := by
  constructor
  · rw [foldAllocs_field ⟨env, false⟩ nm dept k L Emp.totalBookedHours
      (fun a => !hasPTO a && !hasINT a) addAlloc_totalBooked initEmp_totalBooked,
      foldAllocs_field ⟨env, true⟩ nm dept k L Emp.totalBookedHours
      (fun a => !hasPTO a && !hasINT a) addAlloc_totalBooked initEmp_totalBooked]
    apply sumHours_mono L hpos
    intro a ha
    simp only [Bool.and_eq_true] at ha ⊢
    exact ⟨attrib_pnb_mono ha.1, ha.2⟩
  · intro _
    rw [foldAllocs_field ⟨env, false⟩ nm dept k L Emp.bookedBillable
      (fun a => !hasPTO a && !hasINT a && !hasPNB a) addAlloc_billable
      initEmp_billable,
      foldAllocs_field ⟨env, true⟩ nm dept k L Emp.bookedBillable
      (fun a => !hasPTO a && !hasINT a && !hasPNB a) addAlloc_billable
      initEmp_billable]
    apply sumHours_congr
    intro a
    cases hPNB : hasPNB a
    · rw [attrib_pnb_eq_of_not_pnb hPNB]
    · simp [hPNB]

/-- Witness for C8 on the one-row table: toggling PNB on leaves Jane Doe's
totals in order. -/
theorem c8_pnb_toggle_witness :
    optQ Emp.totalBookedHours
        ((foldAllocs ⟨false, false⟩ nmEx "All" [allocBillable]).lookup
          "JANE DOE") ≤
      optQ Emp.totalBookedHours
        ((foldAllocs ⟨false, true⟩ nmEx "All" [allocBillable]).lookup
          "JANE DOE") ∧
    optQ Emp.bookedBillable
        ((foldAllocs ⟨false, false⟩ nmEx "All" [allocBillable]).lookup
          "JANE DOE") =
      optQ Emp.bookedBillable
        ((foldAllocs ⟨false, true⟩ nmEx "All" [allocBillable]).lookup
          "JANE DOE") := by
  have hpos : ∀ a ∈ [allocBillable], 0 ≤ a.hours := by
    intro a ha
    simp only [List.mem_singleton] at ha
    subst ha
    norm_num [allocBillable]
  have hno : ∀ a ∈ [allocBillable],
      normalizeName a.resource = "JANE DOE" → hasPNB a = false := by
    intro a ha hnorm
    simp only [List.mem_singleton] at ha
    subst ha
    decide
  have h := c8_pnb_toggle nmEx "All" false [allocBillable] "JANE DOE" hpos
  exact ⟨h.1, h.2 hno⟩

/-- Allocation whose label carries both the `[PTO]` tag and a `PNB:`
marker. -/
def allocPtoPnb : RawAlloc :=
  { resource := "Jane Doe", name := "PTO: Offsite",
    projectFromTask := "[PTO] PNB: Offsite", month := "Aug 2025",
    startDate := .jnull, endDate := .jnull, hours := 8 }

/-- C2 counterexample: with `includePnb = false` (and `includeEnv = true`),
an allocation labeled with both `[PTO]` and `PNB:` is dropped by the PNB
toggle check before the PTO-priority accumulation runs, so no employee
record is created and no PTO hours are accumulated — the claim says it would
be accumulated into `ptoHours` for every toggle setting. -/
theorem c2_classifier_counterexample :
    hasPTO allocPtoPnb = true ∧ hasPNB allocPtoPnb = true ∧
    (foldAllocs ⟨true, false⟩ nmEx "All" [allocPtoPnb]).lookup "JANE DOE" =
      none ∧
    optQ Emp.ptoHours
      ((foldAllocs ⟨true, false⟩ nmEx "All" [allocPtoPnb]).lookup "JANE DOE") =
        0 :=
  ⟨by decide, by decide, rfl, rfl⟩

/-- C2 as amended. A task label containing both `[PTO]` and `PNB:` is
classified PTO, never PNB, in the accumulation and in the per-project
category key; however the PNB toggle drop tests the raw `PNB:` flag before
classification, so the allocation is accumulated into the employee's
`ptoHours` (touching none of the booked-hour fields) only when `includePnb`
is true; when `includePnb` is false it is dropped entirely. -/
theorem c2_classifier_amended (cfg : Filters) (nm : String → Option Person)
    (dept k : String) (m : List (String × Emp)) (a : RawAlloc)
    (hpto : hasPTO a = true) (hpnb : hasPNB a = true) :
    keySuffix a = "PTO" ∧
    (cfg.pnb = false → processAlloc cfg nm dept m a = m) ∧
    (cfg.pnb = true →
      optQ Emp.ptoHours ((processAlloc cfg nm dept m a).lookup k) =
        optQ Emp.ptoHours (m.lookup k) +
          (if attrib cfg nm dept k a then a.hours else 0) ∧
      optQ Emp.totalBookedHours ((processAlloc cfg nm dept m a).lookup k) =
        optQ Emp.totalBookedHours (m.lookup k) ∧
      optQ Emp.bookedBillable ((processAlloc cfg nm dept m a).lookup k) =
        optQ Emp.bookedBillable (m.lookup k) ∧
      optQ Emp.bookedNonBillable ((processAlloc cfg nm dept m a).lookup k) =
        optQ Emp.bookedNonBillable (m.lookup k)) := by
  refine ⟨?_, ?_, ?_⟩
  · unfold keySuffix
    rw [if_pos hpto]
  · intro hp
    unfold processAlloc
    by_cases hE : (!cfg.env && hasENV a) = true
    · rw [if_pos hE]
    · rw [if_neg hE, if_pos (by simp [hp, hpnb])]
  · intro hp
    rw [processAlloc_lookup]
    refine ⟨?_, ?_, ?_, ?_⟩
    · rw [optQ_stepAt cfg nm dept k Emp.ptoHours hasPTO addAlloc_pto
        initEmp_pto]
      simp [hpto]
    · rw [optQ_stepAt cfg nm dept k Emp.totalBookedHours
        (fun a => !hasPTO a && !hasINT a) addAlloc_totalBooked
        initEmp_totalBooked]
      simp [hpto]
    · rw [optQ_stepAt cfg nm dept k Emp.bookedBillable
        (fun a => !hasPTO a && !hasINT a && !hasPNB a) addAlloc_billable
        initEmp_billable]
      simp [hpto]
    · rw [optQ_stepAt cfg nm dept k Emp.bookedNonBillable
        (fun a => !hasPTO a && !hasINT a && hasPNB a) addAlloc_nonBillable
        initEmp_nonBillable]
      simp [hpto]

/-- Witness for C2 as amended: the `[PTO] PNB:` allocation is classified
PTO, dropped under `includePnb = false`, and accumulated into `ptoHours`
under `includePnb = true`. -/
theorem c2_classifier_amended_witness :
    keySuffix allocPtoPnb = "PTO" ∧
    processAlloc ⟨true, false⟩ nmEx "All" [] allocPtoPnb = [] ∧
    optQ Emp.ptoHours
        ((processAlloc ⟨true, true⟩ nmEx "All" [] allocPtoPnb).lookup
          "JANE DOE") =
      optQ Emp.ptoHours (([] : List (String × Emp)).lookup "JANE DOE") +
        (if attrib ⟨true, true⟩ nmEx "All" "JANE DOE" allocPtoPnb then
          allocPtoPnb.hours else 0) :=
  ⟨(c2_classifier_amended ⟨true, false⟩ nmEx "All" "JANE DOE" []
      allocPtoPnb (by decide) (by decide)).1,
   (c2_classifier_amended ⟨true, false⟩ nmEx "All" "JANE DOE" []
      allocPtoPnb (by decide) (by decide)).2.1 rfl,
   ((c2_classifier_amended ⟨true, true⟩ nmEx "All" "JANE DOE" []
      allocPtoPnb (by decide) (by decide)).2.2 rfl).1⟩

/-! Derived metrics, department rollup and overall totals
(App.jsx:347-408). -/

/-- Fixed configuration constant `TOTAL_ANNUAL_HOURS` (App.jsx:95). -/
def annualHours : Rat := 2080

/-- Fixed configuration constant `totalAnnualBusinessDays` (App.jsx:94). -/
def annualBusinessDays : Rat := 260

/-- Employee record after the derived-metrics map (App.jsx:347-364). -/
structure DerivedEmp where
  department : String
  title : String
  billingTargetPercent : Rat
  nameForDisplay : String
  totalBookedHours : Rat
  bookedBillable : Rat
  bookedNonBillable : Rat
  ptoHours : Rat
  intHours : Rat
  projects : List ProjEntry
  requiredBillableHours : Rat
  targetPercentDisplay : Rat
  percentToTarget : Rat
  utilization : Rat
  utilizationPercent : Rat
deriving DecidableEq, Repr

/-- Derived metrics of one employee (App.jsx:347-364):
`requiredBillableHours` scales the billing target to the period,
`percentToTarget` divides by it when positive and is 0 otherwise,
`utilizationPercent` divides by the potential hours when positive and is 0
otherwise. -/
def deriveEmployee (scope : Nat) (e : Emp) : DerivedEmp :=
  let required := e.billingTargetPercent * annualHours / annualBusinessDays *
    (scope : Rat)
  let pct := if 0 < required then e.bookedBillable / required * 100 else 0
  let potential := annualHours / annualBusinessDays * (scope : Rat)
  let util := if 0 < potential then e.totalBookedHours / potential * 100 else 0
  { department := e.department, title := e.title,
    billingTargetPercent := e.billingTargetPercent,
    nameForDisplay := e.nameForDisplay,
    totalBookedHours := e.totalBookedHours,
    bookedBillable := e.bookedBillable,
    bookedNonBillable := e.bookedNonBillable,
    ptoHours := e.ptoHours, intHours := e.intHours,
    projects := e.projects.map (fun p => p.2),
    requiredBillableHours := required,
    targetPercentDisplay := e.billingTargetPercent * 100,
    percentToTarget := pct, utilization := pct, utilizationPercent := util }

/-- The `allEmployees` map (App.jsx:347). -/
def allEmployees (scope : Nat) (emps : List Emp) : List DerivedEmp :=
  emps.map (deriveEmployee scope)

/-- Noise filter for the rollups (App.jsx:367): only employees with at least
1 booked billable hour. -/
def activeForTotals (l : List DerivedEmp) : List DerivedEmp :=
  l.filter (fun e => (1 : Rat) ≤ e.bookedBillable)

/-- Department accumulator (App.jsx:370-384). -/
structure DeptAcc where
  name : String
  bookedBillable : Rat
  requiredBillableHours : Rat
  totalBookedHours : Rat
  employeeCount : Nat
deriving DecidableEq, Repr

/-- One step of the department fold (App.jsx:369-384). -/
def deptStep (m : List (String × DeptAcc)) (e : DerivedEmp) :
    List (String × DeptAcc) :=
  let d0 := (m.lookup e.department).getD
    { name := e.department, bookedBillable := 0, requiredBillableHours := 0,
      totalBookedHours := 0, employeeCount := 0 }
  setAssoc m e.department
    { d0 with
      bookedBillable := d0.bookedBillable + e.bookedBillable,
      requiredBillableHours := d0.requiredBillableHours +
        e.requiredBillableHours,
      totalBookedHours := d0.totalBookedHours + e.totalBookedHours,
      employeeCount := d0.employeeCount + 1 }

/-- Department record with derived utilization (App.jsx:386-394). -/
structure DeptOut where
  name : String
  bookedBillable : Rat
  requiredBillableHours : Rat
  totalBookedHours : Rat
  employeeCount : Nat
  utilization : Rat
  totalPotentialHours : Rat
deriving DecidableEq, Repr

/-- Derived department metrics (App.jsx:386-394): utilization divides by the
summed required hours when positive and is 0 otherwise. -/
def deriveDept (scope : Nat) (d : DeptAcc) : DeptOut :=
  { name := d.name, bookedBillable := d.bookedBillable,
    requiredBillableHours := d.requiredBillableHours,
    totalBookedHours := d.totalBookedHours,
    employeeCount := d.employeeCount,
    utilization := if 0 < d.requiredBillableHours then
      d.bookedBillable / d.requiredBillableHours * 100 else 0,
    totalPotentialHours := annualHours / annualBusinessDays * (scope : Rat) *
      (d.employeeCount : Rat) }

/-- The departments list (App.jsx:368-394), in insertion order. -/
def departments (scope : Nat) (actives : List DerivedEmp) : List DeptOut :=
  ((actives.foldl deptStep []).map (fun p => p.2)).map (deriveDept scope)

/-- Overall rollup (App.jsx:396-406). -/
structure Overall where
  bookedBillable : Rat
  bookedNonBillable : Rat
  totalBookedHours : Rat
  requiredBillableHours : Rat
  employeeCount : Nat
  totalBusinessDaysInScope : Nat
  utilization : Rat
deriving DecidableEq, Repr

/-- Overall totals and utilization (App.jsx:396-406): the utilization
divides by the summed required hours when positive and is 0 otherwise. -/
def overall (scope : Nat) (actives : List DerivedEmp) : Overall :=
  let req := (actives.map (fun e => e.requiredBillableHours)).sum
  { bookedBillable := (actives.map (fun e => e.bookedBillable)).sum,
    bookedNonBillable := (actives.map (fun e => e.bookedNonBillable)).sum,
    totalBookedHours := (actives.map (fun e => e.totalBookedHours)).sum,
    requiredBillableHours := req,
    employeeCount := actives.length,
    totalBusinessDaysInScope := scope,
    utilization := if 0 < req then
      (actives.map (fun e => e.bookedBillable)).sum / req * 100 else 0 }

/-- C7. Every ratio in the derived outputs evaluates to 0 when its
denominator is 0: `percentToTarget` when `requiredBillableHours` is 0,
`utilizationPercent` when the potential hours are 0, department utilization
when the summed required hours are 0, and overall utilization likewise; in
the rational-number embedding no NaN or undefined value exists to
propagate. -/
theorem c7_zero_denominators (scope : Nat) (emps : List Emp) :
    (∀ e' ∈ allEmployees scope emps,
      (e'.requiredBillableHours = 0 → e'.percentToTarget = 0) ∧
      (annualHours / annualBusinessDays * (scope : Rat) = 0 →
        e'.utilizationPercent = 0)) ∧
    (∀ d ∈ departments scope (activeForTotals (allEmployees scope emps)),
      d.requiredBillableHours = 0 → d.utilization = 0) ∧
    ((overall scope
        (activeForTotals (allEmployees scope emps))).requiredBillableHours =
        0 →
      (overall scope
        (activeForTotals (allEmployees scope emps))).utilization = 0) := by
  refine ⟨?_, ?_, ?_⟩
  · intro e' he'
    rcases List.mem_map.mp he' with ⟨e, _, rfl⟩
    constructor
    · intro h0
      simp only [deriveEmployee] at h0 ⊢
      rw [h0]
      simp
    · intro h0
      simp only [deriveEmployee]
      rw [h0]
      simp
  · intro d hd
    rcases List.mem_map.mp hd with ⟨acc, _, rfl⟩
    intro h0
    simp only [deriveDept] at h0 ⊢
    rw [h0]
    simp
  · intro h0
    simp only [overall] at h0 ⊢
    rw [h0]
    simp

/-- Witness for C7: an employee with a zero billing target in a zero-day
period has zero required hours and a `percentToTarget` of 0, and the empty
rollup has zero required hours and utilization 0. -/
theorem c7_zero_denominators_witness :
    (deriveEmployee 0 (initEmp pdEx allocBillable)).percentToTarget = 0 ∧
    (overall 0 (activeForTotals (allEmployees 0 []))).utilization = 0 := by
  constructor
  · apply ((c7_zero_denominators 0 [initEmp pdEx allocBillable]).1
      (deriveEmployee 0 (initEmp pdEx allocBillable))
      (by simp [allEmployees])).1
    norm_num [deriveEmployee]
  · apply (c7_zero_denominators 0 []).2.2
    rfl

end Capacity
